import Mathlib

/-
Verification development for the RRR compressed-bitmap engine in
src/ext/c/stupidedi/reader/rrr.c.

The C code is shallowly embedded over Nat.  Machine integers are modelled
as Nat, with explicit `% 2 ^ 64` / `% 2 ^ 32` at the places where the C
code's unsigned wraparound or narrowing conversions can actually occur on
the inputs under consideration.  Fixed-width intrinsics (popcount, ctz,
the log2 used through `63 - clz`) are modelled with 64 levels of structural
recursion, which coincides with the hardware semantics for all operands
below 2 ^ 64 (every operand in the C code is a uint64_t).
-/

/-- 64-bit population count, one structural level per bit of fuel.
`popcountAux f n` counts the 1-bits among the low `f` bits of `n`. -/
def popcountAux : Nat → Nat → Nat
  | 0, _ => 0
  | f + 1, n => n % 2 + popcountAux f (n / 2)

/-- Number of 1-bits of a 64-bit word, as in the C `popcount` helper. -/
def popcount (n : Nat) : Nat :=
  popcountAux 64 n

/-- Trailing-zero count of a nonzero word, one structural level per bit. -/
def ctzAux : Nat → Nat → Nat
  | 0, _ => 64
  | f + 1, n => if n % 2 = 1 then 0 else ctzAux f (n / 2) + 1

/-- Count of trailing zeros, as in the C `ctz` helper; the portable
convention `ctz 0 = 64` is the one the source's design notes require. -/
def ctz (n : Nat) : Nat :=
  if n = 0 then 64 else ctzAux 64 n

/-- Floor base-2 logarithm of a 64-bit word, one structural level per bit.
For `1 ≤ n < 2 ^ f` this equals `Nat.log2 n`; the C code obtains it as
`63 - clz n`. -/
def log2Aux : Nat → Nat → Nat
  | 0, _ => 0
  | f + 1, n => if n < 2 then 0 else log2Aux f (n / 2) + 1

/-- Minimum number of bits needed to distinguish `x` values: the C `nbits`,
`x < 2 ? 0 : 64 - clz (x - 1)`. -/
def nbits (x : Nat) : Nat :=
  if x < 2 then 0 else log2Aux 64 (x - 1) + 1

/-- Width in bits of a stored offset for a block of `u` bits and class
`cls`: the C `offset_nbits`, reading the binomial table.  The table entry
`binomial[u][cls]` is `Nat.choose u cls` (see `binomial_table_spec`). -/
def offset_nbits (u cls : Nat) : Nat :=
  nbits (Nat.choose u cls)

/-- Number of `true` entries of a list of bits (the reference count used to
state the agreement properties). -/
def countOnes : List Bool → Nat
  | [] => 0
  | b :: t => (if b then 1 else 0) + countOnes t

/-- Modelled from the spec: `bit_vector.c` is not part of the sources, only
its interface contract (§6 of the spec).  A packed bit vector is a list of
bits (LSB-first within each read/written field, which is the convention
scenario S1 and `rrr_access`'s final bit extraction pin down), a bit length
`size`, and a mutable `record_nbits` record width.  Bits beyond the written
region read as `false`; the C heap instead holds unspecified allocator
junk there, so each claim that depends on such a read is settled with that
modelling choice stated. -/
structure bit_vector where
  size : Nat
  record_nbits : Nat
  bits : List Bool
deriving DecidableEq

/-- Modelled from the spec: read `w` bits of `l` starting at bit `off`,
LSB first. -/
def bvRead (l : List Bool) : Nat → Nat → Nat
  | _, 0 => 0
  | off, w + 1 => (if l.getD off false then 1 else 0) + 2 * bvRead l (off + 1) w

/-- Modelled from the spec: write the low `w` bits of `val` into `l` at bit
`off`, LSB first; writes past the end of the list are dropped. -/
def bvWrite : List Bool → Nat → Nat → Nat → List Bool
  | l, _, _, 0 => l
  | l, off, val, w + 1 => bvWrite (l.set off (Nat.testBit val 0)) (off + 1) (val / 2) w

/-- Modelled from the spec: `bit_vector_read(v, off, w)`. -/
def bit_vector_read (v : bit_vector) (off w : Nat) : Nat :=
  bvRead v.bits off w

/-- Modelled from the spec: `bit_vector_write(v, off, w, val)` returns the
updated vector together with the new bit offset `off + w`; bits of `val`
beyond `w` are ignored. -/
def bit_vector_write (v : bit_vector) (off w val : Nat) : bit_vector × Nat :=
  ({ v with bits := bvWrite v.bits off val w }, off + w)

/-- Modelled from the spec: `bit_vector_read_record(v, i)` reads record `i`
of width `v.record_nbits`. -/
def bit_vector_read_record (v : bit_vector) (i : Nat) : Nat :=
  bvRead v.bits (i * v.record_nbits) v.record_nbits

/-- Modelled from the spec: `bit_vector_write_record(v, i, val)`; in
`rrr_alloc` the returned next record index is `i + 1`, which the call sites
below thread explicitly. -/
def bit_vector_write_record (v : bit_vector) (i val : Nat) : bit_vector :=
  { v with bits := bvWrite v.bits (i * v.record_nbits) val v.record_nbits }

/-- Modelled from the spec: allocate an untyped bit vector of `n` bits.
The C allocator leaves the memory unspecified; the model zero-fills, and
claims that depend on unwritten slots record that choice. -/
def bit_vector_alloc (n : Nat) : bit_vector :=
  ⟨n, 0, List.replicate n false⟩

/-- Modelled from the spec: allocate a record vector of `count` records of
`w` bits each. -/
def bit_vector_alloc_record (w count : Nat) : bit_vector :=
  ⟨w * count, w, List.replicate (w * count) false⟩

/-- Modelled from the spec: truncate a vector to `n` bits (`rrr_alloc` only
ever shrinks). -/
def bit_vector_resize (v : bit_vector) (n : Nat) : bit_vector :=
  ⟨n, v.record_nbits, v.bits.take n⟩

/-- The descending-bit encoding loop of `rrr_encode_block`: starting at bit
position `n`, accumulate `binomial[pos][cls]` for every set bit, stopping
as soon as `cls = 0` or the position drops below `cls` (the C loop
condition `class > 0 && n >= class`).  Bit 0 is never inspected, exactly as
in the C loop. -/
def encodeLoop (v : Nat) : Nat → Nat → Nat
  | _, 0 => 0
  | cls, n + 1 =>
    if cls = 0 ∨ n + 1 < cls then 0
    else if Nat.testBit v (n + 1) then
      Nat.choose (n + 1) cls + encodeLoop v (cls - 1) n
    else
      encodeLoop v cls n

/-- `rrr_encode_block(block_nbits, class, value)`: offset of `value` among
the `u`-bit words of its class, in ascending numeric order.  The C code
starts the loop at the most significant set bit, `63 - clz value`. -/
def rrr_encode_block (u cls v : Nat) : Nat :=
  if cls = 0 ∨ cls = u then 0
  else encodeLoop v cls (if v = 0 then 0 else log2Aux 64 v)

/-- The decoding loop of `rrr_decode_block`, generating bits from position
`n` downwards (the C loop condition is `class <= n && n > 0`); when the
loop exits with `cls` ones still owed they fill the low `cls` positions.
That final C statement `value |= (1ULL << class) - 1` is undefined
behaviour for `class = 64` (reachable only at `u = 64` with an all-ones
block); the model uses the mathematical value `2 ^ cls - 1` that the spec's
§4.2 prescribes. -/
def decodeLoop : Nat → Nat → Nat → Nat
  | 0, cls, _ => if 0 < cls then 2 ^ cls - 1 else 0
  | n + 1, cls, o =>
    if cls ≤ n + 1 then
      if Nat.choose (n + 1) cls ≤ o then
        2 ^ (n + 1) + decodeLoop n (cls - 1) (o - Nat.choose (n + 1) cls)
      else
        decodeLoop n cls o
    else
      if 0 < cls then 2 ^ cls - 1 else 0

/-- `rrr_decode_block(block_nbits, class, offset)`: the member of class
`cls` among `u`-bit words whose offset is `o`. -/
def rrr_decode_block (u cls o : Nat) : Nat :=
  decodeLoop (u - 1) cls o

/-- Modelled from the spec: the `rrr_t` header is in `rrr.h`, which is not
among the sources; its fields are §3 of the spec plus their uses in
`rrr.c`.  Scalar fields are kept as Nat; the uint32 width of the query
return values is applied at the query functions. -/
structure rrr_t where
  size : Nat
  rank : Nat
  nblocks : Nat
  nmarkers : Nat
  block_nbits : Nat
  marker_nbits : Nat
  classes : bit_vector
  offsets : bit_vector
  marked_ranks : bit_vector
  marked_offsets : bit_vector
deriving DecidableEq

/-- The mutable state threaded through the block loop of `rrr_alloc`. -/
structure AllocState where
  classes : bit_vector
  offsets : bit_vector
  mranks : bit_vector
  moffs : bit_vector
  class_at : Nat
  offset_at : Nat
  marker_at : Nat
  need : Nat
  rank : Nat
deriving DecidableEq

/-- One iteration of the block loop of `rrr_alloc` (lines 274-304): read
block `k`, classify, encode, append to `classes` and `offsets`, emit a
marker when `marker_extra = block_nbits - marker_need ≥ 0` (the int64
comparison is `need ≤ u` on Nat), and finally accumulate the rank.  The
marker stores the offsets position `oa` already advanced past the current
block, exactly as the C code does. -/
def allocStep (bv : bit_vector) (u s k : Nat) (st : AllocState) : AllocState :=
  let block := bit_vector_read_record bv k
  let cls := popcount block
  let off := rrr_encode_block u cls block
  let classes := bit_vector_write_record st.classes st.class_at cls
  let wr := bit_vector_write st.offsets st.offset_at (offset_nbits u cls) off
  let offsets := wr.1
  let oa := wr.2
  if st.need ≤ u then
    let want := u - (u - st.need)
    let pfx := if 64 ≤ want then block else block % 2 ^ want
    let moffs := bit_vector_write_record st.moffs st.marker_at oa
    let mranks := bit_vector_write_record st.mranks st.marker_at (st.rank + popcount pfx)
    ⟨classes, offsets, mranks, moffs, st.class_at + 1, oa, st.marker_at + 1,
      s - (u - st.need), st.rank + cls⟩
  else
    ⟨classes, offsets, st.mranks, st.moffs, st.class_at + 1, oa, st.marker_at,
      st.need - u, st.rank + cls⟩

/-- The block loop of `rrr_alloc`, running `allocStep` on blocks
`k, k+1, …` while counting down the number of blocks left. -/
def allocGo (bv : bit_vector) (u s : Nat) : Nat → Nat → AllocState → AllocState
  | 0, _, st => st
  | nb + 1, k, st => allocGo bv u s nb (k + 1) (allocStep bv u s k st)

/-- `rrr_alloc(bits, block_nbits, marker_nbits)` (lines 231-312).  Returns
the built structure together with the final state of the input vector: the
C code sets `bits->record_nbits` to the block width to read the input one
block at a time and restores the original width before returning. -/
def rrr_alloc (bv : bit_vector) (u s : Nat) : rrr_t × bit_vector :=
  let n := bv.size
  let nb := (n + u - 1) / u
  let nm := (n + s - 1) / s
  let onmax := offset_nbits u (u / 2)
  let classes0 := bit_vector_alloc_record (nbits (u + 1)) nb
  let offsets0 := bit_vector_alloc (nb * onmax)
  let mranks0 := bit_vector_alloc_record (nbits (n + 1)) nm
  let moffs0 := bit_vector_alloc_record (nbits (nb * onmax)) nm
  let orig := bv.record_nbits
  let bv' := { bv with record_nbits := u }
  let st := allocGo bv' u s nb 0 ⟨classes0, offsets0, mranks0, moffs0, 0, 0, 0, s, 0⟩
  let offsets := bit_vector_resize st.offsets st.offset_at
  (⟨n, st.rank, nb, nm, u, s, st.classes, offsets, st.mranks, st.moffs⟩,
    { bv' with record_nbits := orig })

/-- The block-skipping loop shared by `rrr_access` and (with a rank
accumulator) `rrr_rank1`: while at least one whole block of `u` bits lies
before the target, add its offset width and advance.  The loop is driven
by fuel (one unit per iteration is enough at every call site, which passes
`i + 1`); the loop itself terminates on exactly the C condition
`i ≥ block_nbits`. -/
def scanLoop (cbv : bit_vector) (u : Nat) : Nat → Nat → Nat → Nat → Nat × Nat × Nat
  | 0, ca, oa, i => (ca, oa, i)
  | f + 1, ca, oa, i =>
    if u ≤ i then
      scanLoop cbv u f (ca + 1) (oa + offset_nbits u (bit_vector_read_record cbv ca)) (i - u)
    else (ca, oa, i)

/-- `rrr_access(rrr, i)` (lines 314-348): jump to the marker before `i`,
walk the remaining blocks, decode the block containing `i` and extract bit
`i mod u`.  The extraction `(block & (1 << i)) >> i` is modelled as the
bit test it is meant to be (the C `1` is a plain int, undefined for
`i ≥ 31`). -/
def rrr_access (r : rrr_t) (i : Nat) : Nat :=
  let m := i / r.marker_nbits
  let ca0 := if m = 0 then 0 else m * r.marker_nbits / r.block_nbits
  let oa0 := if m = 0 then 0 else bit_vector_read_record r.marked_offsets (m - 1)
  let sc := scanLoop r.classes r.block_nbits (i + 1) ca0 oa0 (i - ca0 * r.block_nbits)
  let ca := sc.1
  let oa := sc.2.1
  let i' := sc.2.2
  let cls := bit_vector_read_record r.classes ca
  let w := offset_nbits r.block_nbits cls
  let block := rrr_decode_block r.block_nbits cls (bit_vector_read r.offsets oa w)
  (block &&& (1 <<< i')) >>> i'

/-- The rank-accumulating block scan of `rrr_rank1` (lines 378-387). -/
def rankScan (cbv : bit_vector) (u : Nat) : Nat → Nat → Nat → Nat → Nat → Nat × Nat × Nat × Nat
  | 0, ca, oa, rk, i => (ca, oa, rk, i)
  | f + 1, ca, oa, rk, i =>
    if u ≤ i then
      let cls := bit_vector_read_record cbv ca
      rankScan cbv u f (ca + 1) (oa + offset_nbits u cls) (rk + cls) (i - u)
    else (ca, oa, rk, i)

/-- `rrr_rank1(rrr, i)` (lines 355-396): saturates at `rank` for
`i ≥ size`, otherwise marker jump, block scan, and a popcount of the low
`i mod u` bits of the decoded terminal block.  The uint32 return narrows
mod `2 ^ 32`. -/
def rrr_rank1 (r : rrr_t) (i : Nat) : Nat :=
  if r.size ≤ i then r.rank % 2 ^ 32
  else
    let m := i / r.marker_nbits
    let ca0 := if m = 0 then 0 else m * r.marker_nbits / r.block_nbits
    let oa0 := if m = 0 then 0 else bit_vector_read_record r.marked_offsets (m - 1)
    let rk0 := if m = 0 then 0 else bit_vector_read_record r.marked_ranks (m - 1)
    let sc := rankScan r.classes r.block_nbits (i + 1) ca0 oa0 rk0 (i - ca0 * r.block_nbits)
    let ca := sc.1
    let oa := sc.2.1
    let rk := sc.2.2.1
    let i' := sc.2.2.2
    let cls := bit_vector_read_record r.classes ca
    let w := offset_nbits r.block_nbits cls
    let block := rrr_decode_block r.block_nbits cls (bit_vector_read r.offsets oa w)
    (rk + popcount (block &&& (2 ^ i' - 1))) % 2 ^ 32

/-- `rrr_rank0(rrr, i) = i - rrr_rank1(rrr, i)` (lines 350-353): the
subtraction happens on uint64 and the uint32 return then narrows mod
`2 ^ 32`. -/
def rrr_rank0 (r : rrr_t) (i : Nat) : Nat :=
  (i % 2 ^ 64 + 2 ^ 64 - rrr_rank1 r i) % 2 ^ 64 % 2 ^ 32

/-- uint64 subtraction `a - b` for `a b < 2 ^ 64`. -/
def sub64 (a b : Nat) : Nat :=
  (a + 2 ^ 64 - b % 2 ^ 64) % 2 ^ 64

/-- The binary-search loop of `rrr_find_marker` (lines 416-426) over
uint64 state `(lo, hi, _k)`, also carrying the last value read into
`rank`, which the code inspects after the loop.  All arithmetic wraps mod
`2 ^ 64` exactly as the C does, including `hi - lo` and `k - 1`.  The loop
is driven by fuel; `rrr_find_marker` passes `nmarkers + 2`, which covers
every terminating execution of the C loop on a built structure (the
interval `[lo, hi]` shrinks at every step), and on exhaustion the model
returns the current iterate. -/
def fmLoop (mr : bit_vector) (j : Nat) : Nat → Nat → Nat → Nat → Nat → Nat × Nat × Nat
  | 0, lo, hi, mk, rkp => ((lo + sub64 hi lo / 2) % 2 ^ 64, rkp, mk)
  | f + 1, lo, hi, mk, rkp =>
    let k := (lo + sub64 hi lo / 2) % 2 ^ 64
    if lo ≤ hi then
      let rk := bit_vector_read_record mr k
      if rk < j then fmLoop mr j f ((k + 1) % 2 ^ 64) hi k rk
      else if j < rk then fmLoop mr j f lo (sub64 k 1) mk rk
      else (k, rk, mk)
    else (k, rkp, mk)

/-- `rrr_find_marker(rrr, j)` (lines 404-432): 0 when the answer lies
before the first marker, otherwise a binary search for the last marker
whose stored rank is below `j`, with the C recovery `if (j <= rank)
k = _k` after the loop and the `k + 1` return, both on uint64.  The C
local `rank` is uninitialized before the first probe; the model seeds 0
(on a built structure the loop always probes at least once). -/
def rrr_find_marker (r : rrr_t) (j : Nat) : Nat :=
  if r.size ≤ r.marker_nbits ∨ j < bit_vector_read_record r.marked_ranks 0 then 0
  else
    let res := fmLoop r.marked_ranks j (r.nmarkers + 2) 0 (sub64 r.nmarkers 1) (2 ^ 64 - 1) 0
    let k := if j ≤ res.2.1 then res.2.2 else res.1
    (k + 1) % 2 ^ 64

/-- The block scan of `rrr_select1` (lines 455-464): walk blocks until the
one containing the `j`-th one-bit, returning the C locals
`(class_at, offset_at, rank, class, width)`; `class` and `width` are
uninitialized in C if the loop body never runs, which the model renders as
the seeds 0. -/
def selScan (cbv : bit_vector) (u nb j : Nat) : Nat → Nat → Nat → Nat → Nat → Nat → Nat × Nat × Nat × Nat × Nat
  | 0, ca, oa, rk, cl, w => (ca, oa, rk, cl, w)
  | f + 1, ca, oa, rk, cl, w =>
    if ca < nb then
      let c := bit_vector_read_record cbv ca
      let wd := offset_nbits u c
      if j ≤ rk + c then (ca, oa, rk, c, wd)
      else selScan cbv u nb j f (ca + 1) (oa + wd) (rk + c) c wd
    else (ca, oa, rk, cl, w)

/-- The within-block locate loop of `rrr_select1` (lines 473-476): clear
the lowest set bit, remembering its position, until the running rank
reaches `j`.  `i` is the C int64 local, initially -1. -/
def locLoop (j : Nat) : Nat → Nat → Nat → Int → Int
  | 0, _, _, i => i
  | f + 1, rk, blk, i =>
    if rk < j then
      locLoop j f (rk + 1) (blk - (blk &&& (1 <<< ctz blk))) (ctz blk : Int)
    else i

/-- `rrr_select1(rrr, j)` (lines 434-479): 0 for `j > rank`, otherwise
marker search, block scan, and bit locate; returns
`1 + i + class_at * block_nbits` narrowed to uint32. -/
def rrr_select1 (r : rrr_t) (j : Nat) : Nat :=
  if r.rank < j then 0
  else
    let m := rrr_find_marker r j
    let ca0 := m * r.marker_nbits % 2 ^ 64 / r.block_nbits
    let oa0 := if m = 0 then 0 else bit_vector_read_record r.marked_offsets (m - 1)
    let rk0 := if m = 0 then 0 else bit_vector_read_record r.marked_ranks (m - 1)
    let sc := selScan r.classes r.block_nbits r.nblocks j (r.nblocks + 1) ca0 oa0 rk0 0 0
    let ca := sc.1
    let oa := sc.2.1
    let rk := sc.2.2.1
    let cls := sc.2.2.2.1
    let w := sc.2.2.2.2
    let block := rrr_decode_block r.block_nbits cls (bit_vector_read r.offsets oa w)
    let i := locLoop j (j + 1) rk block (-1)
    ((1 + i + (ca * r.block_nbits : Int)).toNat) % 2 ^ 32

/-- Package a list of source bits as the input bit vector handed to
`rrr_alloc`. -/
def mkBV (l : List Bool) : bit_vector :=
  ⟨l.length, 0, l⟩

/-! ### Concrete instances used by the end-to-end and failing-input theorems -/

/-- Scenario S1's source bits, `0b11010010` with bit 0 the leftmost written
bit. -/
def s1_bits : List Bool := [true, true, false, true, false, false, true, false]

/-- The S1 structure: `u = 3`, `s = 3`. -/
def s1_rrr : rrr_t := (rrr_alloc (mkBV s1_bits) 3 3).1

/-- Source bits `01100110` for the misaligned-marker failing inputs. -/
def c12_bits : List Bool := [false, true, true, false, false, true, true, false]

/-- A structure built with a marker period that is not a multiple of the
block width: `u = 2`, `s = 3`. -/
def c12_rrr : rrr_t := (rrr_alloc (mkBV c12_bits) 2 3).1

/-- Source bits `101101` for the `rrr_find_marker` failing input. -/
def c4_bits : List Bool := [true, false, true, true, false, true]

/-- A structure with three markers, `u = 2`, `s = 2`, whose stored marker
ranks are `1, 3, 4`. -/
def c4_rrr : rrr_t := (rrr_alloc (mkBV c4_bits) 2 2).1

/-- A structure whose single marker slot is never written: `B = 11`,
`u = 2`, `s = 4`, so the first marker boundary `s = 4` lies beyond the
`nblocks * u = 2` block bits the loop ever covers. -/
def c5_rrr : rrr_t := (rrr_alloc (mkBV [true, true]) 2 4).1

/-- A two-bit structure, `u = s = 1`, used for the uint32 wraparound of
`rrr_rank0`. -/
def c9_rrr : rrr_t := (rrr_alloc (mkBV [true, false]) 1 1).1

/-- C8: on S1 (`B = 0b11010010`, `u = 3`, `s = 3`) the built structure has
classes `2, 1, 1` and rank 4; `rrr_rank1` at `i = 0..8` returns
`0,1,2,2,3,3,3,4,4`; `rrr_select1` at `j = 1..4` returns `1,2,4,7`; and
`rrr_access` at `i = 0..7` returns the source bits `1,1,0,1,0,0,1,0`. -/
theorem c8_scenario_s1 :
    (List.range 3).map (bit_vector_read_record s1_rrr.classes) = [2, 1, 1] ∧
    s1_rrr.rank = 4 ∧
    (List.range 9).map (rrr_rank1 s1_rrr) = [0, 1, 2, 2, 3, 3, 3, 4, 4] ∧
    ([1, 2, 3, 4] : List Nat).map (rrr_select1 s1_rrr) = [1, 2, 4, 7] ∧
    (List.range 8).map (rrr_access s1_rrr) = [1, 1, 0, 1, 0, 0, 1, 0] := by
  decide

/-- C1 fails on the code: on `B = 01100110`, `u = 2`, `s = 3` (all
preconditions met), `rrr_access` at `i = 4` returns 1 while bit 4 of the
source is 0.  The marker jump sets `class_at = ⌊(m·s)/u⌋` but
`marked_offsets[m-1]` holds the offsets position of block `⌈(m·s)/u⌉`, so
for `s` not a multiple of `u` the offsets stream is read one field out of
alignment. -/
theorem c1_access_misaligned_eval :
    rrr_access c12_rrr 4 = 1 ∧ c12_bits.getD 4 false = false := by
  decide

/-- C2 fails on the code: on the same structure, `rrr_rank1` at `i = 5`
returns 4 while the source prefix `B[0..5)` holds only 2 one-bits; the
marker's rank sample counts bits of the boundary block that the subsequent
block scan counts again. -/
theorem c2_rank1_misaligned_eval :
    rrr_rank1 c12_rrr 5 = 4 ∧ countOnes (c12_bits.take 5) = 2 := by
  decide

/-- C4 fails on the code: on `B = 101101`, `u = s = 2`, `j = 2` (stored
marker ranks `1, 3, 4`), the binary search of `rrr_find_marker` ends by
moving `lo` past `hi` with its final probe below `j`, so the `k`
recomputed with crossed uint64 bounds is returned: `2^63 + 1`.
`rrr_select1` then reads marker records at index `2^63` (far out of
bounds; 0 in this model) and returns 4, while the second one-bit of the
source lies at index 2, i.e. the claimed return is 3. -/
theorem c4_select1_find_marker_eval :
    rrr_find_marker c4_rrr 2 = 2 ^ 63 + 1 ∧
    rrr_select1 c4_rrr 2 = 4 ∧
    c4_bits.getD 2 false = true ∧ countOnes (c4_bits.take 3) = 2 := by
  decide

/-- C5 fails on the code: on `B = 11`, `u = 2`, `s = 4`, marker 0 exists
(`nmarkers = 1`) but is never written, because the block loop only covers
`nblocks * u = 2` bits and the boundary `1·s = 4` is never reached; the
slot holds unwritten memory (0 in this model) while the claim requires
`rank1(min(4, 2)) = 2`. -/
theorem c5_marker_unwritten_eval :
    c5_rrr.nmarkers = 1 ∧
    bit_vector_read_record c5_rrr.marked_ranks 0 = 0 ∧
    countOnes [true, true] = 2 := by
  decide

/-- C9's counterexample: `rrr_rank0` returns a uint32, so on the two-bit
structure with rank 1 and `i = 2^32 + 1` it returns `(i - 1) mod 2^32 = 0`,
not `i - rank = 2^32` — and 0 does not exceed the source's one 0-bit
either. -/
theorem c9_rank0_cex :
    rrr_rank0 c9_rrr (2 ^ 32 + 1) = 0 ∧ c9_rrr.rank = 1 ∧
    rrr_rank0 c9_rrr (2 ^ 32 + 1) ≠ (2 ^ 32 + 1) - c9_rrr.rank := by
  decide

/-- C10: `rrr_alloc` sets the input vector's `record_nbits` to the block
width to read it one block at a time, restores the original value before
returning, and never writes the input's bits, so the input vector is
returned exactly as it was handed in. -/
theorem c10_alloc_restores_input (bv : bit_vector) (u s : Nat)
    (h1 : 0 < bv.size) (h2 : 1 ≤ u) (h3 : u ≤ 64) (h4 : u ≤ s) :
    (rrr_alloc bv u s).2 = bv := by
  cases bv
  rfl

/-- Witness for `c10_alloc_restores_input` at `B = [1]`, `u = s = 1`. -/
theorem c10_alloc_restores_input_witness :
    (rrr_alloc (mkBV [true]) 1 1).2 = mkBV [true] :=
  c10_alloc_restores_input (mkBV [true]) 1 1 (by decide) (by decide) (by decide) (by decide)

/-! ### The binomial table -/

/-- The process-wide table built by `rrr_precompute_binomials` satisfies
`binomial[n][0] = binomial[n][n] = 1` and Pascal's rule in between, so its
entries are exactly the binomial coefficients `Nat.choose n k` this
development uses for the table reads. -/
theorem binomial_table_spec (n : Nat) :
    Nat.choose n 0 = 1 ∧ Nat.choose n n = 1 ∧
    ∀ k, 1 ≤ k → k < n →
      Nat.choose n k = Nat.choose (n - 1) (k - 1) + Nat.choose (n - 1) k := by
  refine ⟨Nat.choose_zero_right n, Nat.choose_self n, ?_⟩
  intro k hk1 hkn
  match n, k, hk1, hkn with
  | m + 1, j + 1, _, _ => simpa using Nat.choose_succ_succ' m j

/-! ### Popcount arithmetic -/

theorem popcountAux_zero (f : Nat) : popcountAux f 0 = 0 := by
  induction f with
  | zero => rfl
  | succ g ih => simp [popcountAux, ih]

theorem popcountAux_one (f : Nat) (hf : 1 ≤ f) : popcountAux f 1 = 1 := by
  match f, hf with
  | g + 1, _ => simp [popcountAux, popcountAux_zero]

/-- Adding a fresh high bit at position `p` adds one to the population
count, for any fuel that covers the bit. -/
theorem popcountAux_split (p : Nat) : ∀ f w, p + 1 ≤ f → w < 2 ^ p →
    popcountAux f (2 ^ p + w) = 1 + popcountAux f w := by
  induction p with
  | zero =>
    intro f w hf hw
    interval_cases w
    match f, hf with
    | g + 1, _ => simp [popcountAux, popcountAux_zero]
  | succ q ih =>
    intro f w hf hw
    match f, hf with
    | g + 1, hf =>
      have hA : (2 : Nat) ^ (q + 1) = 2 * 2 ^ q := by
        rw [pow_succ, Nat.mul_comm]
      have h1 : (2 ^ (q + 1) + w) % 2 = w % 2 := by omega
      have h2 : (2 ^ (q + 1) + w) / 2 = 2 ^ q + w / 2 := by omega
      have h3 : w / 2 < 2 ^ q := by omega
      calc popcountAux (g + 1) (2 ^ (q + 1) + w)
          = (2 ^ (q + 1) + w) % 2 + popcountAux g ((2 ^ (q + 1) + w) / 2) := rfl
        _ = w % 2 + popcountAux g (2 ^ q + w / 2) := by rw [h1, h2]
        _ = w % 2 + (1 + popcountAux g (w / 2)) := by rw [ih g (w / 2) (by omega) h3]
        _ = 1 + (w % 2 + popcountAux g (w / 2)) := by omega
        _ = 1 + popcountAux (g + 1) w := rfl

/-- The population count of a `p`-bit value is at most `p`. -/
theorem popcountAux_le (f : Nat) : ∀ p v, v < 2 ^ p → p ≤ f → popcountAux f v ≤ p := by
  induction f with
  | zero => intro p v _ _; simp [popcountAux]
  | succ g ih =>
    intro p v hv hp
    match p, hp with
    | 0, _ =>
      have : v = 0 := by omega
      simp [this, popcountAux_zero]
    | q + 1, hp =>
      have hA : (2 : Nat) ^ (q + 1) = 2 * 2 ^ q := by rw [pow_succ, Nat.mul_comm]
      have h3 : v / 2 < 2 ^ q := by omega
      have := ih q (v / 2) h3 (by omega)
      have hm : v % 2 ≤ 1 := by omega
      calc popcountAux (g + 1) v = v % 2 + popcountAux g (v / 2) := rfl
        _ ≤ q + 1 := by omega

/-- A `p`-bit value whose population count is `p` is all ones. -/
theorem popcountAux_allones (p : Nat) : ∀ f v, v < 2 ^ p → p ≤ f →
    popcountAux f v = p → v = 2 ^ p - 1 := by
  induction p with
  | zero => intro f v hv _ _; omega
  | succ q ih =>
    intro f v hv hp hc
    match f, hp with
    | g + 1, hp =>
      have hA : (2 : Nat) ^ (q + 1) = 2 * 2 ^ q := by rw [pow_succ, Nat.mul_comm]
      have h3 : v / 2 < 2 ^ q := by omega
      have hb := popcountAux_le g q (v / 2) h3 (by omega)
      have hsp : v % 2 + popcountAux g (v / 2) = q + 1 := hc
      have h4 : popcountAux g (v / 2) = q := by omega
      have h5 := ih g (v / 2) h3 (by omega) h4
      omega

/-- A value with no one-bits is zero. -/
theorem popcountAux_eq_zero (f : Nat) : ∀ v, v < 2 ^ f → popcountAux f v = 0 → v = 0 := by
  induction f with
  | zero => intro v hv _; omega
  | succ g ih =>
    intro v hv hc
    have hA : (2 : Nat) ^ (g + 1) = 2 * 2 ^ g := by rw [pow_succ, Nat.mul_comm]
    have hsp : v % 2 + popcountAux g (v / 2) = 0 := hc
    have := ih (v / 2) (by omega) (by omega)
    omega

/-! ### The log2 intrinsic -/

/-- For `1 ≤ n < 2 ^ f`, `log2Aux f n` is the floor base-2 logarithm. -/
theorem log2Aux_spec (f : Nat) : ∀ n, 1 ≤ n → n < 2 ^ f →
    2 ^ log2Aux f n ≤ n ∧ n < 2 ^ (log2Aux f n + 1) := by
  induction f with
  | zero => intro n h1 h2; omega
  | succ g ih =>
    intro n h1 h2
    by_cases hn : n < 2
    · have : log2Aux (g + 1) n = 0 := by simp [log2Aux, hn]
      rw [this]
      omega
    · have hA : (2 : Nat) ^ (g + 1) = 2 * 2 ^ g := by rw [pow_succ, Nat.mul_comm]
      have hrec : log2Aux (g + 1) n = log2Aux g (n / 2) + 1 := by
        simp [log2Aux, hn]
      have hhalf : n / 2 < 2 ^ g := by omega
      have := ih (n / 2) (by omega) hhalf
      rcases this with ⟨hlo, hhi⟩
      rw [hrec]
      constructor
      · calc 2 ^ (log2Aux g (n / 2) + 1) = 2 * 2 ^ log2Aux g (n / 2) := by
              rw [pow_succ, Nat.mul_comm]
          _ ≤ n := by omega
      · have hB : (2 : Nat) ^ (log2Aux g (n / 2) + 1 + 1)
            = 2 * 2 ^ (log2Aux g (n / 2) + 1) := by rw [pow_succ, Nat.mul_comm]
        omega

/-! ### Wrappers at the 64-bit fuel used by the code -/

theorem popcount_le (p v : Nat) (hv : v < 2 ^ p) (hp : p ≤ 64) : popcount v ≤ p :=
  popcountAux_le 64 p v hv hp

theorem popcount_split (p w : Nat) (hp : p ≤ 63) (hw : w < 2 ^ p) :
    popcount (2 ^ p + w) = 1 + popcount w :=
  popcountAux_split p 64 w (by omega) hw

theorem popcount_allones (p v : Nat) (hv : v < 2 ^ p) (hp : p ≤ 64)
    (hc : popcount v = p) : v = 2 ^ p - 1 :=
  popcountAux_allones p 64 v hv hp hc

theorem popcount_eq_zero (v : Nat) (hv : v < 2 ^ 64) (hc : popcount v = 0) : v = 0 :=
  popcountAux_eq_zero 64 v hv hc

/-! ### Properties of the block codec loops -/

theorem encodeLoop_cls_zero (v : Nat) : ∀ n, encodeLoop v 0 n = 0 := by
  intro n
  cases n with
  | zero => rfl
  | succ m => simp [encodeLoop]

/-- The encoding loop only inspects bits at positions `1..n` of the
value. -/
theorem encodeLoop_congr (v v' : Nat) : ∀ n cls,
    (∀ j, j ≤ n → Nat.testBit v j = Nat.testBit v' j) →
    encodeLoop v cls n = encodeLoop v' cls n := by
  intro n
  induction n with
  | zero => intro cls _; rfl
  | succ m ih =>
    intro cls h
    by_cases hg : cls = 0 ∨ m + 1 < cls
    · simp [encodeLoop, hg]
    · have hb := h (m + 1) le_rfl
      have hrest : ∀ j, j ≤ m → Nat.testBit v j = Nat.testBit v' j := by
        intro j hj; exact h j (by omega)
      by_cases ht : Nat.testBit v (m + 1)
      · rw [encodeLoop, encodeLoop, if_neg hg, if_neg hg, if_pos ht,
          if_pos (hb ▸ ht), ih (cls - 1) hrest]
      · rw [encodeLoop, encodeLoop, if_neg hg, if_neg hg, if_neg ht,
          if_neg (hb ▸ ht), ih cls hrest]

/-- Starting the encoding loop above every set bit of the value does not
change its result (this is why the C code may start at `63 - clz v`). -/
theorem encodeLoop_ext (v cls n : Nat) (hv : v < 2 ^ (n + 1)) (hc : cls ≤ n + 1) :
    ∀ k, encodeLoop v cls (n + k) = encodeLoop v cls n := by
  intro k
  induction k with
  | zero => rfl
  | succ j ih =>
    have hlt : v < 2 ^ (n + j + 1) := by
      have : (2 : Nat) ^ (n + 1) ≤ 2 ^ (n + j + 1) :=
        Nat.pow_le_pow_right (by omega) (by omega)
      omega
    have ht : Nat.testBit v (n + j + 1) = false := Nat.testBit_lt_two_pow (by
      have : (2 : Nat) ^ (n + j + 1) ≤ 2 ^ (n + j + 1) := le_rfl
      omega)
    by_cases hz : cls = 0
    · rw [hz, encodeLoop_cls_zero, encodeLoop_cls_zero]
    · have hg : ¬(cls = 0 ∨ n + j + 1 < cls) := by omega
      have ht' : ¬(Nat.testBit v (n + j + 1) = true) := by simp [ht]
      show encodeLoop v cls (n + j + 1) = encodeLoop v cls n
      rw [encodeLoop, if_neg hg, if_neg ht']
      exact ih

theorem decodeLoop_cls_zero : ∀ n, decodeLoop n 0 0 = 0 := by
  intro n
  induction n with
  | zero => rfl
  | succ m ih =>
    have h1 : (0 : Nat) ≤ m + 1 := by omega
    have h2 : ¬ Nat.choose (m + 1) 0 ≤ 0 := by simp
    rw [decodeLoop, if_pos h1, if_neg h2, ih]

/-- Decoding the all-ones class from offset 0 yields the all-ones block. -/
theorem decodeLoop_full (m : Nat) : decodeLoop m (m + 1) 0 = 2 ^ (m + 1) - 1 := by
  cases m with
  | zero => rfl
  | succ k =>
    have h : ¬ (k + 2 ≤ k + 1) := by omega
    rw [decodeLoop, if_neg h, if_pos (by omega)]

/-- The encoding loop started at position `n` on an `(n+1)`-bit value of
class `cls` produces an offset below `binomial[n+1][cls]`. -/
theorem encodeLoop_lt_choose : ∀ n, n ≤ 63 → ∀ cls v, 1 ≤ cls → v < 2 ^ (n + 1) →
    popcount v = cls → encodeLoop v cls n < Nat.choose (n + 1) cls := by
  intro n
  induction n with
  | zero =>
    intro _ cls v hc hv hpc
    interval_cases v
    · have : popcount 0 = 0 := by decide
      omega
    · have h1 : popcount 1 = 1 := by decide
      have : cls = 1 := by omega
      subst this
      show encodeLoop 1 1 0 < Nat.choose 1 1
      simp [encodeLoop]
  | succ n ih =>
    intro hn cls v hc hv hpc
    have hA : (2 : Nat) ^ (n + 2) = 2 * 2 ^ (n + 1) := by rw [pow_succ, Nat.mul_comm]
    have hcbound : cls ≤ n + 2 := hpc ▸ popcount_le (n + 2) v hv (by omega)
    by_cases hbit : 2 ^ (n + 1) ≤ v
    · have hw : v - 2 ^ (n + 1) < 2 ^ (n + 1) := by omega
      have hsplit : popcount (2 ^ (n + 1) + (v - 2 ^ (n + 1))) =
          1 + popcount (v - 2 ^ (n + 1)) := popcount_split (n + 1) _ (by omega) hw
      have hveq : 2 ^ (n + 1) + (v - 2 ^ (n + 1)) = v := by omega
      rw [hveq] at hsplit
      have hpw : popcount (v - 2 ^ (n + 1)) = cls - 1 := by omega
      have htb : Nat.testBit v (n + 1) = true := by
        have hdm := Nat.testBit_to_div_mod (x := v) (i := n + 1)
        have hdiv : v / 2 ^ (n + 1) = 1 :=
          Nat.div_eq_of_lt_le (by omega) (by omega)
        simp [hdm, hdiv]
      by_cases hc2 : cls = n + 2
      · rw [encodeLoop, if_pos (by omega)]
        simp [hc2, Nat.choose_self]
      · have hg : ¬(cls = 0 ∨ n + 1 < cls) := by omega
        rw [encodeLoop, if_neg hg, if_pos htb]
        have hcongr : encodeLoop v (cls - 1) n = encodeLoop (v - 2 ^ (n + 1)) (cls - 1) n := by
          apply encodeLoop_congr
          intro j hj
          conv_lhs => rw [← hveq]
          exact Nat.testBit_two_pow_add_gt (by omega) _
        rw [hcongr]
        obtain ⟨d, rfl⟩ : ∃ d, cls = d + 1 := ⟨cls - 1, by omega⟩
        rw [Nat.choose_succ_succ' (n + 1) d]
        simp only [Nat.add_sub_cancel]
        have hlt : encodeLoop (v - 2 ^ (n + 1)) d n < Nat.choose (n + 1) d := by
          rcases Nat.eq_zero_or_pos d with hd | hd
          · subst hd
            rw [encodeLoop_cls_zero]
            simp [Nat.choose_zero_right]
          · exact ih (by omega) d _ hd hw (by simpa using hpw)
        omega
    · push_neg at hbit
      have hcle : cls ≤ n + 1 := hpc ▸ popcount_le (n + 1) v hbit (by omega)
      have htb : ¬(Nat.testBit v (n + 1) = true) := by
        simp [Nat.testBit_lt_two_pow hbit]
      have hg : ¬(cls = 0 ∨ n + 1 < cls) := by omega
      rw [encodeLoop, if_neg hg, if_neg htb]
      have hlt := ih (by omega) cls v hc hbit hpc
      obtain ⟨d, rfl⟩ : ∃ d, cls = d + 1 := ⟨cls - 1, by omega⟩
      rw [Nat.choose_succ_succ' (n + 1) d]
      omega

/-- Decoding inverts encoding, level by level: for an `(n+1)`-bit value
whose class is `cls ≥ 1`, running the decode loop from position `n` on the
offset the encode loop produced recovers the value. -/
theorem decode_encode_loop : ∀ n, n ≤ 63 → ∀ cls v, 1 ≤ cls → v < 2 ^ (n + 1) →
    popcount v = cls → decodeLoop n cls (encodeLoop v cls n) = v := by
  intro n
  induction n with
  | zero =>
    intro _ cls v hc hv hpc
    interval_cases v
    · have : popcount 0 = 0 := by decide
      omega
    · have h1 : popcount 1 = 1 := by decide
      have : cls = 1 := by omega
      subst this
      decide
  | succ n ih =>
    intro hn cls v hc hv hpc
    have hA : (2 : Nat) ^ (n + 2) = 2 * 2 ^ (n + 1) := by rw [pow_succ, Nat.mul_comm]
    have hcbound : cls ≤ n + 2 := hpc ▸ popcount_le (n + 2) v hv (by omega)
    by_cases hbit : 2 ^ (n + 1) ≤ v
    · have hw : v - 2 ^ (n + 1) < 2 ^ (n + 1) := by omega
      have hsplit : popcount (2 ^ (n + 1) + (v - 2 ^ (n + 1))) =
          1 + popcount (v - 2 ^ (n + 1)) := popcount_split (n + 1) _ (by omega) hw
      have hveq : 2 ^ (n + 1) + (v - 2 ^ (n + 1)) = v := by omega
      rw [hveq] at hsplit
      have hpw : popcount (v - 2 ^ (n + 1)) = cls - 1 := by omega
      have htb : Nat.testBit v (n + 1) = true := by
        have hdm := Nat.testBit_to_div_mod (x := v) (i := n + 1)
        have hdiv : v / 2 ^ (n + 1) = 1 :=
          Nat.div_eq_of_lt_le (by omega) (by omega)
        simp [hdm, hdiv]
      by_cases hc2 : cls = n + 2
      · have hones : v = 2 ^ (n + 2) - 1 :=
          popcount_allones (n + 2) v hv (by omega) (by omega)
        subst hc2
        rw [encodeLoop, if_pos (by omega)]
        rw [decodeLoop, if_neg (by omega), if_pos (by omega)]
        omega
      · have hg : ¬(cls = 0 ∨ n + 1 < cls) := by omega
        rw [encodeLoop, if_neg hg, if_pos htb]
        have hcongr : encodeLoop v (cls - 1) n = encodeLoop (v - 2 ^ (n + 1)) (cls - 1) n := by
          apply encodeLoop_congr
          intro j hj
          conv_lhs => rw [← hveq]
          exact Nat.testBit_two_pow_add_gt (by omega) _
        rw [hcongr]
        rw [decodeLoop, if_pos (by omega), if_pos (by omega)]
        rw [Nat.add_sub_cancel_left]
        rcases Nat.eq_zero_or_pos (cls - 1) with hd | hd
        · have hw0 : v - 2 ^ (n + 1) = 0 := by
            apply popcount_eq_zero _ (by
              have : (2 : Nat) ^ (n + 1) ≤ 2 ^ 64 := Nat.pow_le_pow_right (by omega) (by omega)
              omega)
            omega
          rw [hd, hw0, encodeLoop_cls_zero, decodeLoop_cls_zero]
          omega
        · rw [ih (by omega) (cls - 1) _ hd hw hpw]
          omega
    · push_neg at hbit
      have hcle : cls ≤ n + 1 := hpc ▸ popcount_le (n + 1) v hbit (by omega)
      have htb : ¬(Nat.testBit v (n + 1) = true) := by
        simp [Nat.testBit_lt_two_pow hbit]
      have hg : ¬(cls = 0 ∨ n + 1 < cls) := by omega
      rw [encodeLoop, if_neg hg, if_neg htb]
      have hbound := encodeLoop_lt_choose n (by omega) cls v hc hbit hpc
      rw [decodeLoop, if_pos (by omega), if_neg (by omega)]
      exact ih (by omega) cls v hc hbit hpc

/-- Every binomial coefficient is at most `2 ^ n` (so every table entry
fits a uint64 for `n ≤ 64`). -/
theorem choose_le_two_pow (n k : Nat) : Nat.choose n k ≤ 2 ^ n := by
  by_cases h : k ≤ n
  · calc Nat.choose n k
        ≤ ∑ m ∈ Finset.range (n + 1), Nat.choose n m :=
          Finset.single_le_sum (fun i _ => Nat.zero_le _) (Finset.mem_range.mpr (by omega))
      _ = 2 ^ n := Nat.sum_range_choose n
  · rw [Nat.choose_eq_zero_of_lt (by omega)]
    exact Nat.zero_le _

/-- `nbits y` bits are enough to store any value below `y`. -/
theorem lt_two_pow_nbits (x y : Nat) (hy : y ≤ 2 ^ 64) (hx : x < y) :
    x < 2 ^ nbits y := by
  by_cases h : y < 2
  · unfold nbits
    rw [if_pos h, pow_zero]
    omega
  · unfold nbits
    rw [if_neg h]
    obtain ⟨hlo, hhi⟩ := log2Aux_spec 64 (y - 1) (by omega) (by omega)
    omega

/-- On classes that are neither empty nor full, `rrr_encode_block` is the
encoding loop started at bit `u - 1`: starting at the most significant set
bit (`63 - clz v`, the C shortcut) gives the same offset. -/
theorem rrr_encode_block_eq (u cls v : Nat) (hu2 : u ≤ 64) (hcu : cls ≤ u)
    (hc0 : cls ≠ 0) (hcu' : cls ≠ u) (hv : v < 2 ^ u) (hpc : popcount v = cls) :
    rrr_encode_block u cls v = encodeLoop v cls (u - 1) := by
  have hvne : v ≠ 0 := by
    intro h
    rw [h] at hpc
    have : popcount 0 = 0 := by decide
    omega
  have hv64 : v < 2 ^ 64 := by
    have : (2 : Nat) ^ u ≤ 2 ^ 64 := Nat.pow_le_pow_right (by omega) hu2
    omega
  obtain ⟨hlo, hhi⟩ := log2Aux_spec 64 v (by omega) hv64
  have hLu : log2Aux 64 v < u := by
    have h1 : (2 : Nat) ^ log2Aux 64 v < 2 ^ u := by omega
    exact (Nat.pow_lt_pow_iff_right (by omega)).mp h1
  have hcL : cls ≤ log2Aux 64 v + 1 := hpc ▸ popcount_le _ v hhi (by
    have h1 : (2 : Nat) ^ log2Aux 64 v < 2 ^ 64 := by omega
    have := (Nat.pow_lt_pow_iff_right (a := 2) (by omega)).mp h1
    omega)
  have hext := encodeLoop_ext v cls (log2Aux 64 v) hhi hcL (u - 1 - log2Aux 64 v)
  have heq : log2Aux 64 v + (u - 1 - log2Aux 64 v) = u - 1 := by omega
  rw [heq] at hext
  rw [rrr_encode_block, if_neg (by omega), if_neg hvne]
  exact hext.symm

/-- C3: for every block width `u ∈ [1, 64]`, class `cls ≤ u` and `u`-bit
value `v` of population count `cls`, decoding the encoding of `v` gives
back `v`: `rrr_decode_block u cls (rrr_encode_block u cls v) = v`. -/
theorem c3_decode_encode_roundtrip (u cls v : Nat) (hu1 : 1 ≤ u) (hu2 : u ≤ 64)
    (hcu : cls ≤ u) (hv : v < 2 ^ u) (hpc : popcount v = cls) :
    rrr_decode_block u cls (rrr_encode_block u cls v) = v := by
  have hv64 : v < 2 ^ 64 := by
    have : (2 : Nat) ^ u ≤ 2 ^ 64 := Nat.pow_le_pow_right (by omega) hu2
    omega
  by_cases hc0 : cls = 0
  · have hv0 : v = 0 := popcount_eq_zero v hv64 (by omega)
    subst hc0
    rw [rrr_encode_block, if_pos (Or.inl rfl), rrr_decode_block, decodeLoop_cls_zero, hv0]
  · by_cases hcu' : cls = u
    · have hones : v = 2 ^ u - 1 := popcount_allones u v hv hu2 (by omega)
      subst hcu'
      rw [rrr_encode_block, if_pos (Or.inr rfl), rrr_decode_block]
      obtain ⟨m, rfl⟩ : ∃ m, cls = m + 1 := ⟨cls - 1, by omega⟩
      simpa [Nat.add_sub_cancel] using (decodeLoop_full m).trans hones.symm
    · rw [rrr_encode_block_eq u cls v hu2 hcu hc0 hcu' hv hpc, rrr_decode_block]
      have hu' : u - 1 + 1 = u := by omega
      exact decode_encode_loop (u - 1) (by omega) cls v (by omega) (by rw [hu']; exact hv)
        hpc

/-- Witness for `c3_decode_encode_roundtrip`: `u = 5`, `cls = 2`,
`v = 0b10010 = 18`. -/
theorem c3_decode_encode_roundtrip_witness :
    rrr_decode_block 5 2 (rrr_encode_block 5 2 18) = 18 :=
  c3_decode_encode_roundtrip 5 2 18 (by decide) (by decide) (by decide) (by decide)
    (by decide)

/-- C7: the encoded offset of a `u`-bit value of class `cls` is 0 when the
class is empty or full, lies below `binomial[u][cls]` otherwise, and in
all cases fits the `offset_nbits u cls`-bit field the offsets stream
allots to it. -/
theorem c7_encode_offset_bound (u cls v : Nat) (hu1 : 1 ≤ u) (hu2 : u ≤ 64)
    (hcu : cls ≤ u) (hv : v < 2 ^ u) (hpc : popcount v = cls) :
    ((cls = 0 ∨ cls = u) → rrr_encode_block u cls v = 0) ∧
    (0 < cls → cls < u → rrr_encode_block u cls v < Nat.choose u cls) ∧
    rrr_encode_block u cls v < 2 ^ offset_nbits u cls := by
  have hmain : 0 < cls → cls < u → rrr_encode_block u cls v < Nat.choose u cls := by
    intro h1 h2
    rw [rrr_encode_block_eq u cls v hu2 hcu (by omega) (by omega) hv hpc]
    have hu' : u - 1 + 1 = u := by omega
    have := encodeLoop_lt_choose (u - 1) (by omega) cls v (by omega)
      (by rw [hu']; exact hv) hpc
    rwa [hu'] at this
  refine ⟨fun h => by rw [rrr_encode_block, if_pos h], hmain, ?_⟩
  by_cases h : cls = 0 ∨ cls = u
  · rw [rrr_encode_block, if_pos h]
    exact Nat.pos_pow_of_pos _ (by omega)
  · have hcb : Nat.choose u cls ≤ 2 ^ 64 :=
      le_trans (choose_le_two_pow u cls) (Nat.pow_le_pow_right (by omega) hu2)
    exact lt_two_pow_nbits _ _ hcb (hmain (by omega) (by omega))

/-- Witness for `c7_encode_offset_bound`: `u = 5`, `cls = 2`, `v = 18`. -/
theorem c7_encode_offset_bound_witness :
    rrr_encode_block 5 2 18 < Nat.choose 5 2 ∧
    rrr_encode_block 5 2 18 < 2 ^ offset_nbits 5 2 := by
  have h := c7_encode_offset_bound 5 2 18 (by decide) (by decide) (by decide) (by decide)
    (by decide)
  exact ⟨h.2.1 (by decide) (by decide), h.2.2⟩

/-! ### The select sentinels -/

/-- With `j = 0` the binary-search loop never lowers `lo` past an entry
below `j` (no Nat is below 0), so the `_k` sentinel survives every
iteration unchanged. -/
theorem fmLoop_mk_of_zero (mr : bit_vector) : ∀ fuel lo hi mk rkp,
    (fmLoop mr 0 fuel lo hi mk rkp).2.2 = mk := by
  intro fuel
  induction fuel with
  | zero => intro lo hi mk rkp; rfl
  | succ f ih =>
    intro lo hi mk rkp
    rw [fmLoop]
    by_cases h : lo ≤ hi
    · rw [if_pos h]
      dsimp only
      split
      · omega
      · split
        · exact ih _ _ _ _
        · rfl
    · rw [if_neg h]

/-- `rrr_find_marker(·, 0) = 0` on every structure: either the entry test
fires, or the search breaks with `j ≤ rank` and restores the untouched
`_k = 2^64 - 1` (the uint64 `-1`), and `_k + 1` wraps to 0. -/
theorem rrr_find_marker_zero (r : rrr_t) : rrr_find_marker r 0 = 0 := by
  rw [rrr_find_marker]
  by_cases h : r.size ≤ r.marker_nbits ∨ 0 < bit_vector_read_record r.marked_ranks 0
  · rw [if_pos h]
  · rw [if_neg h]
    dsimp only
    rw [if_pos (Nat.zero_le _), fmLoop_mk_of_zero]
    decide

/-- `rrr_select1(·, 0) = 0` on every structure with at least one block:
after `rrr_find_marker` returns 0 the block scan breaks at once
(`rank + class ≥ 0` always holds), the locate loop never runs, and the
result is `1 + (-1) + 0`. -/
theorem rrr_select1_zero (r : rrr_t) (hb : 0 < r.nblocks) : rrr_select1 r 0 = 0 := by
  rw [rrr_select1, if_neg (by omega), rrr_find_marker_zero]
  dsimp only
  rw [selScan, if_pos (by simpa using hb), if_pos (Nat.zero_le _)]
  rw [locLoop, if_neg (by omega)]
  simp

/-- C6: on every built structure, `rrr_select1` returns the sentinel 0
both at `j = 0` and at every `j` beyond the total rank. -/
theorem c6_select1_sentinel (l : List Bool) (u s : Nat)
    (hn : l ≠ []) (hu : 1 ≤ u) (hs : u ≤ s) :
    rrr_select1 (rrr_alloc (mkBV l) u s).1 0 = 0 ∧
    ∀ j, (rrr_alloc (mkBV l) u s).1.rank < j →
      rrr_select1 (rrr_alloc (mkBV l) u s).1 j = 0 := by
  constructor
  · apply rrr_select1_zero
    have hl : 1 ≤ l.length := List.length_pos.mpr hn
    show 0 < (l.length + u - 1) / u
    apply Nat.div_pos (by omega) (by omega)
  · intro j hj
    rw [rrr_select1, if_pos hj]

/-- Witness for `c6_select1_sentinel`: the S1 structure, whose rank is 4,
at `j = 0` and `j = 5`. -/
theorem c6_select1_sentinel_witness :
    rrr_select1 (rrr_alloc (mkBV s1_bits) 3 3).1 0 = 0 ∧
    rrr_select1 (rrr_alloc (mkBV s1_bits) 3 3).1 5 = 0 :=
  ⟨(c6_select1_sentinel s1_bits 3 3 (by decide) (by decide) (by decide)).1,
    (c6_select1_sentinel s1_bits 3 3 (by decide) (by decide) (by decide)).2 5 (by decide)⟩

/-! ### The total rank computed by construction -/

theorem countOnes_getD_drop (l : List Bool) : ∀ off,
    countOnes (l.drop off) =
      (if l.getD off false then 1 else 0) + countOnes (l.drop (off + 1)) := by
  induction l with
  | nil => intro off; simp [countOnes]
  | cons a t ih =>
    intro off
    cases off with
    | zero => simp [countOnes]
    | succ o => simpa using ih o

/-- Reading `w` bits at `off` and popcounting them accounts exactly for
the ones of the window `[off, off + w)`. -/
theorem popcount_bvRead_add (l : List Bool) : ∀ w f off, w ≤ f →
    popcountAux f (bvRead l off w) + countOnes (l.drop (off + w)) =
      countOnes (l.drop off) := by
  intro w
  induction w with
  | zero => intro f off _; simp [bvRead, popcountAux_zero]
  | succ v ihw =>
    intro f off hwf
    match f, hwf with
    | g + 1, _ =>
      rw [bvRead]
      have hb : (if l.getD off false then 1 else 0) ≤ 1 := by split <;> omega
      have hsp : popcountAux (g + 1)
            ((if l.getD off false then 1 else 0) + 2 * bvRead l (off + 1) v)
          = (if l.getD off false then 1 else 0) + popcountAux g (bvRead l (off + 1) v) := by
        show ((if l.getD off false then 1 else 0) + 2 * bvRead l (off + 1) v) % 2 +
            popcountAux g (((if l.getD off false then 1 else 0) +
              2 * bvRead l (off + 1) v) / 2) = _
        have h1 : ((if l.getD off false then 1 else 0) + 2 * bvRead l (off + 1) v) % 2 =
            (if l.getD off false then 1 else 0) := by omega
        have h2 : ((if l.getD off false then 1 else 0) + 2 * bvRead l (off + 1) v) / 2 =
            bvRead l (off + 1) v := by omega
        rw [h1, h2]
      rw [hsp]
      have hrec := ihw g (off + 1) (by omega)
      have harr : off + 1 + v = off + (v + 1) := by omega
      rw [harr] at hrec
      have hstep := countOnes_getD_drop l off
      omega

theorem allocStep_rank (bv : bit_vector) (u s k : Nat) (st : AllocState) :
    (allocStep bv u s k st).rank = st.rank + popcount (bit_vector_read_record bv k) := by
  rw [allocStep]
  dsimp only
  split <;> rfl

/-- The running rank of the block loop accounts exactly for the ones of
the blocks already consumed. -/
theorem allocGo_rank (bv : bit_vector) (u s : Nat) (hu : bv.record_nbits = u)
    (hu64 : u ≤ 64) : ∀ nb k st,
    (allocGo bv u s nb k st).rank + countOnes (bv.bits.drop ((k + nb) * u)) =
      st.rank + countOnes (bv.bits.drop (k * u)) := by
  intro nb
  induction nb with
  | zero => intro k st; simp [allocGo]
  | succ m ih =>
    intro k st
    rw [allocGo]
    have h1 := ih (k + 1) (allocStep bv u s k st)
    rw [allocStep_rank] at h1
    have hread : bit_vector_read_record bv k = bvRead bv.bits (k * u) u := by
      rw [bit_vector_read_record, hu]
    rw [hread] at h1
    have e1 : (k + 1 + m) * u = (k + (m + 1)) * u := by ring_nf
    have e2 : (k + 1) * u = k * u + u := by ring
    rw [e1, e2] at h1
    have h3 : popcount (bvRead bv.bits (k * u) u) +
        countOnes (bv.bits.drop (k * u + u)) = countOnes (bv.bits.drop (k * u)) :=
      popcount_bvRead_add bv.bits u 64 (k * u) hu64
    omega

/-- Rounding up to a multiple of `u` covers `n`. -/
theorem le_ceilDiv_mul (n u : Nat) (hu : 1 ≤ u) : n ≤ ((n + u - 1) / u) * u := by
  have hdm := Nat.div_add_mod (n + u - 1) u
  have hmod : (n + u - 1) % u < u := Nat.mod_lt _ (by omega)
  have hc : ((n + u - 1) / u) * u = u * ((n + u - 1) / u) := Nat.mul_comm _ _
  omega

theorem allocGo_rank_total (bv : bit_vector) (u s nb : Nat) (st : AllocState)
    (hu : bv.record_nbits = u) (hu64 : u ≤ 64) (hst : st.rank = 0)
    (hcov : bv.bits.length ≤ nb * u) :
    (allocGo bv u s nb 0 st).rank = countOnes bv.bits := by
  have h := allocGo_rank bv u s hu hu64 nb 0 st
  rw [Nat.zero_add, Nat.zero_mul, List.drop_zero] at h
  rw [List.drop_eq_nil_of_le hcov] at h
  simpa [hst, countOnes] using h

/-- The `rank` field of a built structure is the number of ones of the
source (the zero padding of the final block contributes nothing). -/
theorem rrr_alloc_rank (l : List Bool) (u s : Nat) (hu1 : 1 ≤ u) (hu64 : u ≤ 64) :
    (rrr_alloc (mkBV l) u s).1.rank = countOnes l := by
  exact allocGo_rank_total _ u s _ _ rfl hu64 rfl (le_ceilDiv_mul l.length u hu1)

theorem countOnes_le_length (l : List Bool) : countOnes l ≤ l.length := by
  induction l with
  | nil => simp [countOnes]
  | cons b t ih =>
    rw [countOnes]
    simp only [List.length_cons]
    split <;> omega

/-- C9 (amended): for a built structure and `n ≤ i < 2 ^ 32`, `rrr_rank0`
returns `i - rank` without clamping at the number of 0-bits, so beyond the
source length it exceeds the true count of zeros; above `2 ^ 32` the
uint32 return wraps instead. -/
theorem c9_rank0_no_saturation (l : List Bool) (u s i : Nat)
    (hn : l ≠ []) (hu1 : 1 ≤ u) (hu2 : u ≤ 64) (hs : u ≤ s)
    (hi1 : l.length ≤ i) (hi2 : i < 2 ^ 32) :
    rrr_rank0 (rrr_alloc (mkBV l) u s).1 i = i - countOnes l ∧
    (l.length < i →
      l.length - countOnes l < rrr_rank0 (rrr_alloc (mkBV l) u s).1 i) := by
  have hrank := rrr_alloc_rank l u s hu1 hu2
  have hsize : (rrr_alloc (mkBV l) u s).1.size = l.length := rfl
  have hco := countOnes_le_length l
  have hr1 : rrr_rank1 (rrr_alloc (mkBV l) u s).1 i = countOnes l := by
    rw [rrr_rank1, if_pos (show (rrr_alloc (mkBV l) u s).1.size ≤ i by
      rw [hsize]; exact hi1), hrank]
    exact Nat.mod_eq_of_lt (by omega)
  have hmain : rrr_rank0 (rrr_alloc (mkBV l) u s).1 i = i - countOnes l := by
    rw [rrr_rank0, hr1]
    have hi64 : i % 2 ^ 64 = i := Nat.mod_eq_of_lt (by omega)
    rw [hi64]
    have h1 : (i + 2 ^ 64 - countOnes l) % 2 ^ 64 = i - countOnes l := by
      have he : i + 2 ^ 64 - countOnes l = (i - countOnes l) + 2 ^ 64 := by omega
      rw [he, Nat.add_mod_right]
      exact Nat.mod_eq_of_lt (by omega)
    rw [h1]
    exact Nat.mod_eq_of_lt (by omega)
  exact ⟨hmain, fun hlt => by rw [hmain]; omega⟩

/-- Witness for `c9_rank0_no_saturation`: `B = [1, 0]`, `u = s = 1`,
`i = 5`. -/
theorem c9_rank0_no_saturation_witness :
    rrr_rank0 (rrr_alloc (mkBV [true, false]) 1 1).1 5 = 5 - countOnes [true, false] ∧
    List.length [true, false] - countOnes [true, false] <
      rrr_rank0 (rrr_alloc (mkBV [true, false]) 1 1).1 5 := by
  have h := c9_rank0_no_saturation [true, false] 1 1 5 (by decide) (by decide)
    (by decide) (by decide) (by decide) (by decide)
  exact ⟨h.1, h.2 (by decide)⟩
